import Mathlib

/-!
Verification of the cache / error-handling layer of the fhevm-voting-system
repository.

The development shallowly embeds two JavaScript modules:

* `CacheManager` (TTL cache with bounded capacity, tag-based clearing and a
  score-based eviction heuristic).  Keys and values are modelled by a JSON
  value type `JSValue`; `JSON.stringify` / `JSON.parse` are modelled by an
  executable printer and parser over character lists, and the round-trip
  theorem `jsonParse_stringify` backs the source's `cloneData` deep copy.
  JavaScript `Map`s are modelled as insertion-ordered association lists
  (`mapGet` / `mapSet` / `mapDelete`), mirroring JavaScript Map iteration
  order.  Timestamps are logical (`Int`, milliseconds); `Date.now()` becomes
  an explicit `now` argument.  The source's timers (`setTimeout` deletion),
  statistics counters, persistence hooks, and the `compress` / `encrypt`
  helpers (which are the identity in the source) are not part of the model;
  none of them affect the values stored in or returned from the cache.

* `ErrorHandler` (`classifyError` and the `retry` loop with exponential
  backoff).  `await`ed sleeps are recorded as a list of delays instead of
  elapsing real time.
-/

/-- A JSON value: the values JavaScript can round-trip through
`JSON.stringify` / `JSON.parse`.  Object fields are kept in insertion
order, mirroring JavaScript object key order for string keys. -/

inductive JSValue where
  | null : JSValue
  | bool : Bool → JSValue
  | num : Int → JSValue
  | str : String → JSValue
  | arr : List JSValue → JSValue
  | obj : List (String × JSValue) → JSValue

/-- The decimal digit character for a digit value below ten. -/

def digitChar (d : Nat) : Char := Char.ofNat (48 + d)

/-- Decimal digits of a natural number, least significant first, with
explicit fuel (the number itself is always enough fuel). -/

def natDigitsAux : Nat → Nat → List Nat
  | 0, _ => []
  | fuel + 1, n => if n = 0 then [] else (n % 10) :: natDigitsAux fuel (n / 10)

/-- Decimal digits of a natural number, least significant first. -/

def natDigits (n : Nat) : List Nat := natDigitsAux n n

/-- Decimal rendering of a natural number as characters. -/

def natChars (n : Nat) : List Char :=
  if n = 0 then ['0'] else (natDigits n).reverse.map digitChar

/-- Decimal rendering of an integer as characters, as produced by
JavaScript number-to-string conversion on integral values. -/

def intChars (n : Int) : List Char :=
  if n < 0 then '-' :: natChars n.natAbs else natChars n.natAbs

/-- JSON string-body escaping: quote and backslash get a backslash. -/

def escChars : List Char → List Char
  | [] => []
  | c :: cs => if c = '"' ∨ c = '\\' then '\\' :: c :: escChars cs else c :: escChars cs

/-- A JSON string literal: quoted, escaped character list. -/

def strLit (s : String) : List Char := '"' :: (escChars s.toList ++ ['"'])

/-- The rendering of the JSON `null` keyword. -/
def nullChars : List Char := ['n', 'u', 'l', 'l']

/-- The rendering of the JSON `true` keyword. -/
def trueChars : List Char := ['t', 'r', 'u', 'e']

/-- The rendering of the JSON `false` keyword. -/
def falseChars : List Char := ['f', 'a', 'l', 's', 'e']

mutual
/-- Characters of `JSON.stringify` on a `JSValue` (compact form, no
whitespace, exactly as JavaScript's `JSON.stringify` with no spacing
argument produces). -/
def stringifyChars : JSValue → List Char
  | .null => nullChars
  | .bool true => trueChars
  | .bool false => falseChars
  | .num n => intChars n
  | .str s => strLit s
  | .arr vs => '[' :: (elemsChars vs ++ [']'])
  | .obj fs => '\x7b' :: (fieldsChars fs ++ ['\x7d'])

/-- Characters of a comma-separated JSON array body. -/
def elemsChars : List JSValue → List Char
  | [] => []
  | [v] => stringifyChars v
  | v :: vs => stringifyChars v ++ ',' :: elemsChars vs

/-- Characters of a comma-separated JSON object body. -/
def fieldsChars : List (String × JSValue) → List Char
  | [] => []
  | [(k, v)] => strLit k ++ ':' :: stringifyChars v
  | (k, v) :: fs => strLit k ++ ':' :: stringifyChars v ++ ',' :: fieldsChars fs
end

/-- Model of `JSON.stringify` on the modelled JSON values. -/
def stringify (v : JSValue) : String := (stringifyChars v).asString

mutual
/-- Parse the body of a JSON string literal (after the opening quote),
returning the unescaped characters and the input after the closing
quote. -/
def parseStrBody : List Char → Option (List Char × List Char)
  | [] => none
  | c :: cs =>
    if c = '"' then some ([], cs)
    else if c = '\\' then parseEsc cs
    else (parseStrBody cs).map (fun p => (c :: p.1, p.2))

/-- Continuation of `parseStrBody` after a backslash: only an escaped
quote or backslash is accepted. -/
def parseEsc : List Char → Option (List Char × List Char)
  | [] => none
  | c2 :: cs2 =>
    if c2 = '"' ∨ c2 = '\\' then
      (parseStrBody cs2).map (fun p => (c2 :: p.1, p.2))
    else none
end

/-- Read a maximal run of decimal digits, returning their values (most
significant first) and the rest of the input. -/
def parseDigs : List Char → List Nat × List Char
  | [] => ([], [])
  | c :: cs =>
    if c.isDigit then
      let p := parseDigs cs
      ((c.toNat - 48) :: p.1, p.2)
    else ([], c :: cs)

/-- Assemble digit values (most significant first) into a natural number. -/

def digsToNat (ds : List Nat) : Nat := ds.foldl (fun a d => a * 10 + d) 0

/-- Expect the given literal characters at the head of the input and
return the remainder, failing otherwise. -/

def dropLit : List Char → List Char → Option (List Char)
  | [], cs => some cs
  | _ :: _, [] => none
  | e :: es, c :: cs => if c = e then dropLit es cs else none

mutual
/-- Parse one JSON value, with fuel bounding the nesting of recursive
calls.  Models `JSON.parse` on the grammar fragment `JSValue` covers. -/
def parseV : Nat → List Char → Option (JSValue × List Char)
  | 0, _ => none
  | _ + 1, [] => none
  | fuel + 1, c :: cs =>
    if c = 'n' then
      match dropLit ['u', 'l', 'l'] cs with
      | some rest => some (.null, rest)
      | none => none
    else if c = 't' then
      match dropLit ['r', 'u', 'e'] cs with
      | some rest => some (.bool true, rest)
      | none => none
    else if c = 'f' then
      match dropLit ['a', 'l', 's', 'e'] cs with
      | some rest => some (.bool false, rest)
      | none => none
    else if c = '"' then
      (parseStrBody cs).map (fun p => (.str p.1.asString, p.2))
    else if c = '[' then
      match dropLit [']'] cs with
      | some rest => some (.arr [], rest)
      | none => (parseElems fuel cs).map (fun p => (.arr p.1, p.2))
    else if c = '\x7b' then
      match dropLit ['\x7d'] cs with
      | some rest => some (.obj [], rest)
      | none => (parseFields fuel cs).map (fun p => (.obj p.1, p.2))
    else if c = '-' then
      match parseDigs cs with
      | ([], _) => none
      | (ds, rest) => some (.num (-(digsToNat ds : Int)), rest)
    else if c.isDigit then
      let p := parseDigs (c :: cs)
      some (.num (digsToNat p.1), p.2)
    else none

/-- Parse the elements of a nonempty JSON array body up to and including
the closing bracket. -/
def parseElems : Nat → List Char → Option (List JSValue × List Char)
  | 0, _ => none
  | fuel + 1, cs =>
    match parseV fuel cs with
    | none => none
    | some (v, rest) =>
      match rest with
      | ']' :: rest2 => some ([v], rest2)
      | ',' :: rest2 => (parseElems fuel rest2).map (fun p => (v :: p.1, p.2))
      | _ => none

/-- Parse the fields of a nonempty JSON object body up to and including
the closing brace. -/
def parseFields : Nat → List Char → Option (List (String × JSValue) × List Char)
  | 0, _ => none
  | _ + 1, [] => none
  | fuel + 1, c :: cs2 =>
    if c = '"' then
      match parseStrBody cs2 with
      | none => none
      | some (kcs, rest) =>
        match dropLit [':'] rest with
        | none => none
        | some rest2 =>
          match parseV fuel rest2 with
          | none => none
          | some (v, rest3) =>
            match rest3 with
            | '\x7d' :: rest4 => some ([(kcs.asString, v)], rest4)
            | ',' :: rest4 => (parseFields fuel rest4).map (fun p => ((kcs.asString, v) :: p.1, p.2))
            | _ => none
    else none
end

/-- Model of `JSON.parse`: parse a whole string as one JSON value. -/
def jsonParse (s : String) : Option JSValue :=
  match parseV (s.toList.length + 1) s.toList with
  | some (v, []) => some v
  | _ => none

/-- Is the head of the remaining input unable to extend a decimal
number?  Used to state that parsing stops exactly at a value's end. -/

def restSafe : List Char → Bool
  | [] => true
  | c :: _ => !c.isDigit

/-- Value of a least-significant-first digit list. -/

def ofDigs : List Nat → Nat
  | [] => 0
  | d :: L => d + 10 * ofDigs L

/-- JavaScript truthiness on the modelled JSON values: `null`, `false`,
`0` and the empty string are falsy; arrays and objects are always
truthy. -/
def truthy : JSValue → Bool
  | .null => false
  | .bool b => b
  | .num n => n ≠ 0
  | .str s => s ≠ ""
  | .arr _ => true
  | .obj _ => true

/-- The value of `x || null` for an optional JavaScript argument `x`
(absent arguments behave like `undefined`, which is falsy). -/

def jsOrNull : Option JSValue → JSValue
  | none => .null
  | some v => if truthy v then v else .null

/-- Lookup in a JavaScript `Map` modelled as an insertion-ordered
association list. -/

def mapGet {α : Type} (k : String) : List (String × α) → Option α
  | [] => none
  | (k', v) :: rest => if k' = k then some v else mapGet k rest

/-- Model of `Map.prototype.set`: replace in place if the key is present (keeping
its position in insertion order), else append. -/

def mapSet {α : Type} (k : String) (v : α) : List (String × α) → List (String × α)
  | [] => [(k, v)]
  | (k', v') :: rest => if k' = k then (k, v) :: rest else (k', v') :: mapSet k v rest

/-- Model of `Map.prototype.delete`: remove the entry with the given key. -/

def mapDelete {α : Type} (k : String) : List (String × α) → List (String × α)
  | [] => []
  | (k', v') :: rest => if k' = k then rest else (k', v') :: mapDelete k rest

/-- Model of `Map.prototype.has`. -/

def mapHas {α : Type} (k : String) (m : List (String × α)) : Bool :=
  (mapGet k m).isSome

/-- Cache entry priority; `CacheManager.set` defaults to `'normal'`. -/

inductive Priority where
  | low : Priority
  | normal : Priority
  | high : Priority
deriving DecidableEq

namespace CacheManager

/-- A cache entry, as built by `CacheManager.set` (part_002 lines
1139-1151).  The `size`, `compressed` and `encrypted` fields of the
source are omitted: they feed only the statistics counters and the
`compress` / `encrypt` helpers, which are the identity in the source. -/
structure Entry where
  data : JSValue
  timestamp : Int
  ttl : Int
  expiresAt : Int
  priority : Priority
  tags : List String

/-- The observable state of a `CacheManager` instance: the three `Map`s
(`cache`, `accessTimes`, `hitCount`) and the two options the claims
depend on (`maxSize`, `defaultTTL`).  Statistics counters and timers are
omitted (see the module comment). -/

structure CacheState where
  cache : List (String × Entry)
  accessTimes : List (String × Int)
  hitCount : List (String × Int)
  maxSize : Nat
  defaultTTL : Int

/-- Source `normalizeKey` (part_002 line 1481): strings are used as-is, any
other key is addressed by its `JSON.stringify` serialization. -/

def normalizeKey (key : JSValue) : String :=
  match key with
  | .str s => s
  | _ => stringify key

/-- Source `denormalizeKey` (part_002 line 1485): try `JSON.parse`, fall back
to the raw string. -/

def denormalizeKey (k : String) : JSValue :=
  match jsonParse k with
  | some v => v
  | none => .str k

/-- Source `isExpired` (part_002 line 1493): `entry.expiresAt > 0 && Date.now()
> entry.expiresAt`. -/

def isExpired (now : Int) (e : Entry) : Bool :=
  e.expiresAt > 0 && now > e.expiresAt

/-- Source `cloneData` (part_002 line 1497): primitives (and `null`) are
returned as-is, objects and arrays are round-tripped through
`JSON.parse(JSON.stringify(data))`, falling back to the original value
if serialization fails. -/

def cloneData (v : JSValue) : JSValue :=
  match v with
  | .arr _ =>
    (match jsonParse (stringify v) with
     | some w => w
     | none => v)
  | .obj _ =>
    (match jsonParse (stringify v) with
     | some w => w
     | none => v)
  | _ => v

/-- Source `delete` (part_002 lines 1196-1222): normalize the key; if present,
remove the entry and its bookkeeping and report `true`.  The timer
clearing, statistics and persistent-storage removal are not modelled. -/
def deleteKey (st : CacheState) (key : JSValue) : CacheState × Bool :=
  let cacheKey := normalizeKey key
  match mapGet cacheKey st.cache with
  | none => (st, false)
  | some _ =>
    ({ st with
        cache := mapDelete cacheKey st.cache
        accessTimes := mapDelete cacheKey st.accessTimes
        hitCount := mapDelete cacheKey st.hitCount }, true)

/-- Source `get` (part_002 lines 1100-1123).  Returns the produced value and
the successor state; `now` stands for `Date.now()` and `defaultValue`
for `options.defaultValue` (so a miss returns
`options.defaultValue || null`).  On a hit the entry's access time and
hit count are refreshed and a clone of the stored data is returned. -/

def get (st : CacheState) (now : Int) (key : JSValue) (defaultValue : Option JSValue) :
    JSValue × CacheState :=
  let cacheKey := normalizeKey key
  match mapGet cacheKey st.cache with
  | none => (jsOrNull defaultValue, st)
  | some entry =>
    if isExpired now entry then
      (jsOrNull defaultValue, (deleteKey st key).1)
    else
      (cloneData entry.data,
       { st with
          accessTimes := mapSet cacheKey now st.accessTimes
          hitCount := mapSet cacheKey ((mapGet cacheKey st.hitCount).getD 0 + 1) st.hitCount })

/-- The numeric weight of a priority in `evictLeastUsed` (part_002 line
1524): `entry.priority === 'high' ? 3 : entry.priority === 'normal' ? 2
: 1`. -/

def priorityWeight : Priority → Nat
  | .high => 3
  | .normal => 2
  | .low => 1

/-- The eviction score of one entry (part_002 line 1527):
`(hitCount + 1) * priority * (accessTime / 1000)`, with the hit count
and access time read from the bookkeeping maps (`|| 0`).  JavaScript
number division is modelled by exact rational division. -/

def score (st : CacheState) (k : String) (e : Entry) : ℚ :=
  let accessTime : Int := (mapGet k st.accessTimes).getD 0
  let hitCount : Int := (mapGet k st.hitCount).getD 0
  ((hitCount : ℚ) + 1) * (priorityWeight e.priority : ℚ) * ((accessTime : ℚ) / 1000)

/-- The fold computing the least-scored key: starting from
`leastUsedScore = Infinity`, keep the first strictly smaller score in
iteration (= insertion) order.  `none` stands for the initial
`Infinity` / `null` pair. -/

def leastUsed (st : CacheState) : Option (String × ℚ) :=
  st.cache.foldl
    (fun acc kv =>
      let s := score st kv.1 kv.2
      match acc with
      | none => some (kv.1, s)
      | some best => if s < best.2 then some (kv.1, s) else acc)
    none

/-- Source `evictLeastUsed` (part_002 lines 1517-1539): find the least-scored
key, then `if (leastUsedKey) this.delete(this.denormalizeKey(leastUsedKey))`.
Note both the falsy-key guard (an empty-string key is skipped) and the
`denormalizeKey` round trip before `delete`, exactly as in the source. -/

def evictLeastUsed (st : CacheState) : CacheState :=
  match leastUsed st with
  | none => st
  | some (k, _) => if k = "" then st else (deleteKey st (denormalizeKey k)).1

/-- The options bag accepted by `CacheManager.set`. -/

structure SetOptions where
  ttl : Option Int := none
  priority : Option Priority := none
  tags : Option (List String) := none

/-- The effective time-to-live of a `set` call:
`options.ttl || this.options.defaultTTL` (a zero — falsy — ttl falls
back to the default). -/

def effectiveTTL (st : CacheState) (opts : SetOptions) : Int :=
  match opts.ttl with
  | some t => if t = 0 then st.defaultTTL else t
  | none => st.defaultTTL

/-- Source `set` (part_002 lines 1128-1191): normalize the key, evict if the
cache is full and the key is new, then store a cloned entry and reset
its bookkeeping.  Compression and encryption are identity functions in
the source and the expiration timer only mirrors `isExpired`, so none
of them appear in the state. -/

def set (st : CacheState) (now : Int) (key value : JSValue) (opts : SetOptions) : CacheState :=
  let cacheKey := normalizeKey key
  let ttl := effectiveTTL st opts
  let priority := opts.priority.getD .normal
  let tags := opts.tags.getD []
  let st1 :=
    if st.cache.length ≥ st.maxSize ∧ mapHas cacheKey st.cache = false then
      evictLeastUsed st
    else st
  let entry : Entry :=
    { data := cloneData value
      timestamp := now
      ttl := ttl
      expiresAt := now + ttl
      priority := priority
      tags := tags }
  { st1 with
      cache := mapSet cacheKey entry st1.cache
      accessTimes := mapSet cacheKey now st1.accessTimes
      hitCount := mapSet cacheKey 0 st1.hitCount }

/-- The tag branch of `clear` (part_002 lines 1231-1237): walk the
entries in insertion order and `delete(denormalizeKey(key))` for every
entry one of whose tags is in the requested list.  The fold re-checks
membership in the current state, matching the live-iterator semantics
of deleting during `Map` iteration. -/

def clearByTags (st : CacheState) (ts : List String) : CacheState :=
  st.cache.foldl
    (fun acc kv =>
      match mapGet kv.1 acc.cache with
      | none => acc
      | some e =>
        if e.tags.any (fun tag => ts.contains tag) then
          (deleteKey acc (denormalizeKey kv.1)).1
        else acc)
    st

/-- Source `clear` with an options bag holding only `tags` (part_002 lines
1227-1261): a nonempty tag list selects the tag branch, anything else
falls through to the full clear (the regular-expression `pattern`
branch is outside the modelled claims).  The full clear empties all
three maps. -/

def clear (st : CacheState) (tags : Option (List String)) : CacheState :=
  match tags with
  | some ts =>
    if ts.length > 0 then clearByTags st ts
    else { st with cache := [], accessTimes := [], hitCount := [] }
  | none => { st with cache := [], accessTimes := [], hitCount := [] }

end CacheManager

/-- Does `hay` contain `pat` as a contiguous substring?  Models
JavaScript `String.prototype.includes`. -/
def containsSub (hay pat : String) : Bool :=
  hay.toList.tails.any (fun t => pat.toList.isPrefixOf t)

/-- Character-wise lowercasing, modelling
`String.prototype.toLowerCase` on the ASCII messages the source
matches against. -/

def toLowerStr (s : String) : String := (s.toList.map Char.toLower).asString

namespace ErrorHandler

/-- A thrown JavaScript error as far as `classifyError` inspects it: a
message and an optional `code` property (a string such as
`'NETWORK_ERROR'` or a number such as `4001`). -/
structure JsError where
  message : String
  code : Option JSValue

/-- Strict equality of an error's `code` property against a string or
number literal, as used by `classifyError`. -/

def codeEq (c : Option JSValue) : JSValue → Bool
  | .str t =>
    (match c with
     | some (.str s) => s = t
     | _ => false)
  | .num n =>
    (match c with
     | some (.num m) => m = n
     | _ => false)
  | _ => false

/-- The error taxonomy of `this.errorTypes` (part_003 lines 8-16). -/

inductive ErrType where
  | network : ErrType
  | contract : ErrType
  | wallet : ErrType
  | validation : ErrType
  | permission : ErrType
  | timeout : ErrType
  | unknown : ErrType
deriving DecidableEq

/-- The classification record returned by `classifyError`. -/

structure ErrorInfo where
  type : ErrType
  canRetry : Bool
  severity : String

/-- Source `classifyError` (part_003 lines 158-228): lowercase the message and
test the branches in source order, each by substring matching on the
message or strict equality on the `code`. -/

def classifyError (e : JsError) : ErrorInfo :=
  let message := toLowerStr e.message
  let code := e.code
  if containsSub message ("network") || containsSub message ("fetch") ||
      containsSub message ("connection") || codeEq code (.str "NETWORK_ERROR") then
    { type := .network, canRetry := true, severity := "medium" }
  else if containsSub message ("revert") || containsSub message ("gas") ||
      containsSub message ("contract") || codeEq code (.str "CALL_EXCEPTION") then
    { type := .contract, canRetry := false, severity := "high" }
  else if containsSub message ("wallet") || containsSub message ("metamask") ||
      containsSub message ("user rejected") || codeEq code (.num 4001) then
    { type := .wallet, canRetry := true, severity := "medium" }
  else if containsSub message ("invalid") || containsSub message ("validation") ||
      containsSub message ("required") then
    { type := .validation, canRetry := false, severity := "low" }
  else if containsSub message ("permission") || containsSub message ("unauthorized") ||
      containsSub message ("forbidden") || codeEq code (.num 403) then
    { type := .permission, canRetry := false, severity := "high" }
  else if containsSub message ("timeout") || containsSub message ("timed out") ||
      codeEq code (.str "TIMEOUT") then
    { type := .timeout, canRetry := true, severity := "medium" }
  else
    { type := .unknown, canRetry := true, severity := "medium" }

/-- The retry configuration, `this.retryConfig` merged with the caller's
options (part_003 lines 18-23 and 115). -/

structure RetryConfig where
  maxRetries : Nat
  baseDelay : Nat
  maxDelay : Nat
  backoffFactor : Nat

/-- The default `this.retryConfig` of the source. -/

def defaultRetryConfig : RetryConfig :=
  { maxRetries := 3, baseDelay := 1000, maxDelay := 10000, backoffFactor := 2 }

/-- One run of the `retry` loop (part_003 lines 114-153), from loop
index `attempt` with `left = maxRetries - attempt` iterations allowed
after this one.  `fn i` is the outcome of the `i`-th invocation of the
wrapped function (`fn(attempt)` in the source).  Returns the final
outcome, the list of backoff delays awaited (in order), and the number
of invocations of `fn`. -/

def retryLoop (fn : Nat → Except JsError JSValue) (cfg : RetryConfig) :
    Nat → Nat → Except JsError JSValue × List Nat × Nat
  | attempt, 0 =>
    (match fn attempt with
     | .ok v => (.ok v, [], 1)
     | .error e => (.error e, [], 1))
  | attempt, left + 1 =>
    (match fn attempt with
     | .ok v => (.ok v, [], 1)
     | .error e =>
       if (classifyError e).canRetry then
         let d := min (cfg.baseDelay * cfg.backoffFactor ^ attempt) cfg.maxDelay
         let r := retryLoop fn cfg (attempt + 1) left
         (r.1, d :: r.2.1, r.2.2 + 1)
       else (.error e, [], 1))

/-- Source `retry(fn, options)`: run the loop from `attempt = 0`; the loop
condition `attempt <= config.maxRetries` means `maxRetries` further
iterations are allowed after the first. -/

def retry (fn : Nat → Except JsError JSValue) (cfg : RetryConfig) :
    Except JsError JSValue × List Nat × Nat :=
  retryLoop fn cfg 0 cfg.maxRetries

end ErrorHandler

namespace CacheManager

/-- The keys of the cache map are pairwise distinct — true of every
reachable state, because a JavaScript `Map` cannot hold a key twice. -/
def KeysNodup (st : CacheState) : Prop := (st.cache.map Prod.fst).Nodup

end CacheManager

/-- The state produced by the `CacheManager` constructor with default
options: empty maps, `maxSize` 100, `defaultTTL` five minutes. -/
def initialState : CacheManager.CacheState :=
  { cache := [], accessTimes := [], hitCount := [], maxSize := 100, defaultTTL := 300000 }

namespace ErrorHandler

/-- The backoff delay awaited after the failed attempt with loop index
`i`: `Math.min(baseDelay * Math.pow(backoffFactor, attempt), maxDelay)`. -/
def backoffDelay (cfg : RetryConfig) (i : Nat) : Nat :=
  min (cfg.baseDelay * cfg.backoffFactor ^ i) cfg.maxDelay

end ErrorHandler

/-- A concrete wrapped function for the C7 witness: fails twice with a
network error, then succeeds. -/
def fnTwiceThenOk : Nat → Except ErrorHandler.JsError JSValue :=
  fun i => if i < 2 then .error ⟨"network down", none⟩ else .ok (.num 7)

/-- A concrete wrapped function for the C7 witness: always fails with a
retryable error. -/

def fnAlwaysFails : Nat → Except ErrorHandler.JsError JSValue :=
  fun _ => .error ⟨"connection lost", none⟩

/-- A concrete wrapped function for the C8 witness: always fails with a
validation error. -/
def fnValidationError : Nat → Except ErrorHandler.JsError JSValue :=
  fun _ => .error ⟨"Invalid input", none⟩

/-- A cache constructed with `maxSize: 1`. -/
def smallCache1 : CacheManager.CacheState :=
  { cache := [], accessTimes := [], hitCount := [], maxSize := 1, defaultTTL := 300000 }

/-- A cache constructed with `maxSize: 2`. -/

def smallCache2 : CacheManager.CacheState :=
  { cache := [], accessTimes := [], hitCount := [], maxSize := 2, defaultTTL := 300000 }

/-- The entry stored first in the C5 scenario (key `"x"` with quotes,
set at time 1000). -/
def entryA : CacheManager.Entry :=
  { data := .num 1, timestamp := 1000, ttl := 300000, expiresAt := 301000,
    priority := .normal, tags := [] }

/-- The entry stored second in the C5 scenario (key `x`, set at time
2000). -/

def entryB : CacheManager.Entry :=
  { data := .num 2, timestamp := 2000, ttl := 300000, expiresAt := 302000,
    priority := .normal, tags := [] }

/-- The two-entry cache of the C5 scenario: key `"x"` (with quotes,
lower score) and key `x` (higher score), at capacity `maxSize = 2`. -/

def c5pre : CacheManager.CacheState :=
  CacheManager.set (CacheManager.set smallCache2 1000 (.str "\"x\"") (.num 1) {})
    2000 (.str "x") (.num 2) {}

/-- The two-entry cache of the C6 scenario: the `"x"`-with-quotes entry
carries tag `t`, the plain-`x` entry carries no tags. -/
def c6pre : CacheManager.CacheState :=
  CacheManager.set
    (CacheManager.set initialState 1000 (.str "\"x\"") (.num 1) { tags := some ["t"] })
    2000 (.str "x") (.num 2) {}

theorem sizeOf_jsvalue_pos (v : JSValue) : 1 ≤ sizeOf v := by
  cases v <;> simp

theorem natDigitsAux_lt10 : ∀ fuel n d, d ∈ natDigitsAux fuel n → d < 10 := by
  intro fuel
  induction fuel with
  | zero => intro n d h; simp [natDigitsAux] at h
  | succ f ih =>
    intro n d h
    rw [natDigitsAux] at h
    by_cases h0 : n = 0
    · rw [if_pos h0] at h; simp at h
    · rw [if_neg h0] at h
      rcases List.mem_cons.mp h with h1 | h2
      · omega
      · exact ih _ _ h2

theorem ofDigs_natDigitsAux : ∀ fuel n, n ≤ fuel → ofDigs (natDigitsAux fuel n) = n := by
  intro fuel
  induction fuel with
  | zero => intro n h; interval_cases n; simp [natDigitsAux, ofDigs]
  | succ f ih =>
    intro n h
    rw [natDigitsAux]
    by_cases h0 : n = 0
    · rw [if_pos h0, h0]; rfl
    · rw [if_neg h0, ofDigs, ih (n / 10) (by omega)]
      omega

theorem ofDigs_natDigits (n : Nat) : ofDigs (natDigits n) = n :=
  ofDigs_natDigitsAux n n (Nat.le_refl n)

theorem natDigits_lt10 (n d : Nat) (h : d ∈ natDigits n) : d < 10 :=
  natDigitsAux_lt10 n n d h

theorem natDigits_ne_nil (n : Nat) (h : n ≠ 0) : natDigits n ≠ [] := by
  cases n with
  | zero => exact absurd rfl h
  | succ m => rw [natDigits, natDigitsAux, if_neg h]; simp

theorem digsToNat_append (L : List Nat) (d : Nat) :
    digsToNat (L ++ [d]) = digsToNat L * 10 + d := by
  simp [digsToNat, List.foldl_append]

theorem digsToNat_reverse (L : List Nat) : digsToNat L.reverse = ofDigs L := by
  induction L with
  | nil => rfl
  | cons d L ih =>
    rw [List.reverse_cons, digsToNat_append, ih, ofDigs]
    ring

theorem digitChar_isDigit (d : Nat) (h : d < 10) : (digitChar d).isDigit = true := by
  interval_cases d <;> decide

theorem digitChar_toNat (d : Nat) (h : d < 10) : (digitChar d).toNat - 48 = d := by
  interval_cases d <;> decide

theorem isDigit_ne (c : Char) (h : c.isDigit = true) :
    c ≠ 'n' ∧ c ≠ 't' ∧ c ≠ 'f' ∧ c ≠ '"' ∧ c ≠ '[' ∧ c ≠ '\x7b' ∧ c ≠ '-' ∧ c ≠ ']' ∧ c ≠ '\x7d' ∧ c ≠ ',' ∧ c ≠ ':' := by
  refine ⟨?_, ?_, ?_, ?_, ?_, ?_, ?_, ?_, ?_, ?_, ?_⟩ <;>
    (intro he; rw [he] at h; exact absurd h (by decide))

theorem parseDigs_map : ∀ (L : List Nat), (∀ d ∈ L, d < 10) → ∀ rest, restSafe rest = true →
    parseDigs (L.map digitChar ++ rest) = (L, rest) := by
  intro L
  induction L with
  | nil =>
    intro _ rest hrest
    cases rest with
    | nil => rfl
    | cons c cs =>
      simp only [restSafe, Bool.not_eq_true'] at hrest
      simp [parseDigs, hrest]
  | cons d L ih =>
    intro hlt rest hrest
    have hd : d < 10 := hlt d (List.mem_cons_self d L)
    simp only [List.map_cons, List.cons_append, parseDigs, digitChar_isDigit d hd, if_pos,
      List.append_eq]
    rw [ih (fun x hx => hlt x (List.mem_cons_of_mem d hx)) rest hrest]
    simp [digitChar_toNat d hd]

theorem parseDigs_natChars (n : Nat) (rest : List Char) (h : restSafe rest = true) :
    ∃ ds, parseDigs (natChars n ++ rest) = (ds, rest) ∧ digsToNat ds = n ∧ ds ≠ [] := by
  by_cases h0 : n = 0
  · subst h0
    refine ⟨[0], ?_, by simp [digsToNat], by simp⟩
    have h1 : natChars 0 = List.map digitChar [0] := by simp [natChars, digitChar]
    rw [h1]
    exact parseDigs_map [0] (by simp) rest h
  · refine ⟨(natDigits n).reverse, ?_, ?_, ?_⟩
    · rw [natChars, if_neg h0]
      exact parseDigs_map _ (fun d hd => natDigits_lt10 n d (List.mem_reverse.mp hd)) rest h
    · rw [digsToNat_reverse]; exact ofDigs_natDigits n
    · simp only [ne_eq, List.reverse_eq_nil_iff]
      exact natDigits_ne_nil n h0

theorem parseStrBody_escChars : ∀ (l : List Char) (rest : List Char),
    parseStrBody (escChars l ++ '"' :: rest) = some (l, rest) := by
  intro l
  induction l with
  | nil =>
    intro rest
    rw [escChars, List.nil_append, parseStrBody, if_pos rfl]
  | cons c cs ih =>
    intro rest
    by_cases hc : c = '"' ∨ c = '\\'
    · rw [escChars, if_pos hc]
      have h1 : ('\\' :: c :: escChars cs) ++ '"' :: rest
          = '\\' :: (c :: (escChars cs ++ '"' :: rest)) := by simp
      rw [h1, parseStrBody, if_neg (by decide), if_pos rfl, parseEsc, if_pos hc, ih]
      rfl
    · rw [escChars, if_neg hc]
      push_neg at hc
      obtain ⟨hq, hb⟩ := hc
      have h1 : (c :: escChars cs) ++ '"' :: rest = c :: (escChars cs ++ '"' :: rest) := by simp
      rw [h1, parseStrBody, if_neg hq, if_neg hb, ih]
      rfl

theorem asString_toList (s : String) : s.toList.asString = s := rfl

theorem natChars_ne_nil (n : Nat) : natChars n ≠ [] := by
  rw [natChars]
  by_cases h0 : n = 0
  · rw [if_pos h0]; simp
  · rw [if_neg h0]
    simp only [ne_eq, List.map_eq_nil_iff, List.reverse_eq_nil_iff]
    exact natDigits_ne_nil n h0

theorem stringifyChars_length_pos (v : JSValue) : 1 ≤ (stringifyChars v).length := by
  cases v with
  | null => simp [stringifyChars, nullChars]
  | bool b => cases b <;> simp [stringifyChars, trueChars, falseChars]
  | num k =>
    rw [stringifyChars, intChars]
    by_cases hk : k < 0
    · rw [if_pos hk]; simp
    · rw [if_neg hk]
      have := natChars_ne_nil k.natAbs
      cases hc : natChars k.natAbs with
      | nil => exact absurd hc this
      | cons c t => simp [hc]
  | str s => simp [stringifyChars, strLit]
  | arr vs => simp [stringifyChars]
  | obj fs => simp [stringifyChars]

theorem natChars_head_digit (n : Nat) :
    ∃ c t, natChars n = c :: t ∧ c.isDigit = true := by
  rw [natChars]
  by_cases h0 : n = 0
  · rw [if_pos h0]; exact ⟨'0', [], rfl, by decide⟩
  · rw [if_neg h0]
    have hne : (natDigits n).reverse ≠ [] := by
      simp only [ne_eq, List.reverse_eq_nil_iff]; exact natDigits_ne_nil n h0
    cases hc : (natDigits n).reverse with
    | nil => exact absurd hc hne
    | cons d t =>
      refine ⟨digitChar d, t.map digitChar, by simp [hc], ?_⟩
      have hd : d ∈ natDigits n := List.mem_reverse.mp (hc ▸ List.mem_cons_self d t)
      exact digitChar_isDigit d (natDigits_lt10 n d hd)

theorem stringifyChars_head (v : JSValue) :
    ∃ c t, stringifyChars v = c :: t ∧
      (c.isDigit = true ∨ c = 'n' ∨ c = 't' ∨ c = 'f' ∨ c = '"' ∨ c = '[' ∨ c = '\x7b' ∨ c = '-') := by
  cases v with
  | null => exact ⟨'n', ['u', 'l', 'l'], by rw [stringifyChars]; rfl, by simp⟩
  | bool b =>
    cases b
    · exact ⟨'f', ['a', 'l', 's', 'e'], by rw [stringifyChars]; rfl, by simp⟩
    · exact ⟨'t', ['r', 'u', 'e'], by rw [stringifyChars]; rfl, by simp⟩
  | num k =>
    rw [stringifyChars, intChars]
    by_cases hk : k < 0
    · rw [if_pos hk]; exact ⟨'-', _, rfl, by simp⟩
    · rw [if_neg hk]
      obtain ⟨c, t, hct, hd⟩ := natChars_head_digit k.natAbs
      exact ⟨c, t, hct, Or.inl hd⟩
  | str s => exact ⟨'"', _, by rw [stringifyChars, strLit], by simp⟩
  | arr vs => exact ⟨'[', _, by rw [stringifyChars], by simp⟩
  | obj fs => exact ⟨'\x7b', _, by rw [stringifyChars], by simp⟩

theorem stringifyChars_head_ne_brk (v : JSValue) :
    ∃ c t, stringifyChars v = c :: t ∧ c ≠ ']' := by
  obtain ⟨c, t, hct, hk⟩ := stringifyChars_head v
  refine ⟨c, t, hct, ?_⟩
  rcases hk with h | h | h | h | h | h | h | h
  · exact (isDigit_ne c h).2.2.2.2.2.2.2.1
  all_goals (subst h; decide)

theorem parseV_digit_head (f : Nat) (c : Char) (cs : List Char) (h : c.isDigit = true) :
    parseV (f + 1) (c :: cs)
      = some (.num (digsToNat (parseDigs (c :: cs)).1), (parseDigs (c :: cs)).2) := by
  obtain ⟨h1, h2, h3, h4, h5, h6, h7, _⟩ := isDigit_ne c h
  rw [parseV, if_neg h1, if_neg h2, if_neg h3, if_neg h4, if_neg h5, if_neg h6, if_neg h7,
    if_pos h]

theorem parseV_natChars (f : Nat) (n : Nat) (rest : List Char) (h : restSafe rest = true) :
    parseV (f + 1) (natChars n ++ rest) = some (.num (n : Int), rest) := by
  obtain ⟨c, t, hct, hd⟩ := natChars_head_digit n
  obtain ⟨ds, hds, hval, _⟩ := parseDigs_natChars n rest h
  rw [hct] at hds
  rw [hct, List.cons_append, parseV_digit_head f c (t ++ rest) hd,
    show c :: (t ++ rest) = (c :: t) ++ rest by simp, hds, hval]

theorem parseV_intChars (f : Nat) (k : Int) (rest : List Char) (h : restSafe rest = true) :
    parseV (f + 1) (intChars k ++ rest) = some (.num k, rest) := by
  rw [intChars]
  by_cases hk : k < 0
  · rw [if_pos hk]
    obtain ⟨ds, hds, hval, hne⟩ := parseDigs_natChars k.natAbs rest h
    rw [List.cons_append, parseV, if_neg (by decide), if_neg (by decide), if_neg (by decide),
      if_neg (by decide), if_neg (by decide), if_neg (by decide), if_pos rfl, hds]
    cases ds with
    | nil => exact absurd rfl hne
    | cons d ds' =>
      simp only []
      rw [hval]
      have habs : -((k.natAbs : Nat) : Int) = k := by omega
      rw [habs]
  · rw [if_neg hk]
    have habs : ((k.natAbs : Nat) : Int) = k := by omega
    rw [parseV_natChars f k.natAbs rest h, habs]

theorem elemsChars_cons_head (v1 : JSValue) (vs : List JSValue) :
    ∃ c t, elemsChars (v1 :: vs) = c :: t ∧ c ≠ ']' := by
  obtain ⟨c, t0, hct, hcne⟩ := stringifyChars_head_ne_brk v1
  cases vs with
  | nil => exact ⟨c, t0, by simp [elemsChars, hct], hcne⟩
  | cons v2 tail =>
    exact ⟨c, t0 ++ ',' :: elemsChars (v2 :: tail), by simp [elemsChars, hct], hcne⟩

theorem elemsChars_length_pos (v1 : JSValue) (vs : List JSValue) :
    1 ≤ (elemsChars (v1 :: vs)).length := by
  obtain ⟨c, t, hct, _⟩ := elemsChars_cons_head v1 vs
  simp [hct]

theorem strLit_length (k : String) : (strLit k).length = (escChars k.toList).length + 2 := by
  simp [strLit]

theorem fieldsChars_length (kv : String × JSValue) (fs : List (String × JSValue)) :
    2 ≤ (fieldsChars (kv :: fs)).length := by
  obtain ⟨k, v⟩ := kv
  cases fs with
  | nil => simp [fieldsChars, strLit_length]; omega
  | cons kv2 tail => simp [fieldsChars, strLit_length]; omega

theorem asString_data (s : String) : s.data.asString = s := rfl

theorem fieldsChars_cons_head (kv : String × JSValue) (fs : List (String × JSValue)) :
    ∃ t, fieldsChars (kv :: fs) = '"' :: t := by
  obtain ⟨k, v⟩ := kv
  cases fs with
  | nil =>
    refine ⟨escChars k.toList ++ '"' :: ':' :: stringifyChars v, ?_⟩
    simp [fieldsChars, strLit]
  | cons kv2 tail =>
    refine ⟨escChars k.toList ++ '"' :: ':' :: (stringifyChars v ++ ',' :: fieldsChars (kv2 :: tail)), ?_⟩
    simp [fieldsChars, strLit]

theorem parseV_print : ∀ (N : Nat) (v : JSValue), sizeOf v ≤ N → ∀ (fuel : Nat) (rest : List Char),
    (stringifyChars v).length < fuel → restSafe rest = true →
    parseV fuel (stringifyChars v ++ rest) = some (v, rest) := by
  intro N
  induction N with
  | zero =>
    intro v hv
    have := sizeOf_jsvalue_pos v
    omega
  | succ N ih =>
    intro v hv fuel rest hfuel hrest
    obtain ⟨f, rfl⟩ : ∃ f, fuel = f + 1 := ⟨fuel - 1, by omega⟩
    have helems : ∀ (vs : List JSValue), (∀ x ∈ vs, sizeOf x ≤ N) → vs ≠ [] →
        ∀ (g : Nat) (rest2 : List Char), (elemsChars vs).length + 2 ≤ g →
        parseElems g (elemsChars vs ++ ']' :: rest2) = some (vs, rest2) := by
      intro vs
      induction vs with
      | nil => intro _ hne; exact absurd rfl hne
      | cons v1 tail ihl =>
        intro hsz _ g rest2 hg
        have hlen1 : 1 ≤ (stringifyChars v1).length := stringifyChars_length_pos v1
        have hg1 : 1 ≤ g := by
          have := elemsChars_length_pos v1 tail
          omega
        obtain ⟨g', rfl⟩ : ∃ g', g = g' + 1 := ⟨g - 1, by omega⟩
        cases tail with
        | nil =>
          have he : elemsChars [v1] = stringifyChars v1 := by simp [elemsChars]
          rw [he] at hg ⊢
          rw [parseElems, ih v1 (hsz v1 (by simp)) g' (']' :: rest2) (by omega)
            (by simp [restSafe])]
          rfl
        | cons v2 tail' =>
          have he : elemsChars (v1 :: v2 :: tail')
              = stringifyChars v1 ++ ',' :: elemsChars (v2 :: tail') := by
            simp [elemsChars]
          rw [he] at hg ⊢
          have hlen2 : 1 ≤ (elemsChars (v2 :: tail')).length := elemsChars_length_pos v2 tail'
          simp only [List.length_append, List.length_cons] at hg
          rw [List.append_assoc, List.cons_append, parseElems,
            ih v1 (hsz v1 (by simp)) g' _ (by omega) (by simp [restSafe])]
          have hrec := ihl (fun x hx => hsz x (by simp [hx])) (by simp) g' rest2 (by omega)
          simp [hrec]
    cases v with
    | null =>
      simp only [stringifyChars, nullChars, List.cons_append, List.nil_append]
      rw [parseV, if_pos rfl]
      simp [dropLit]
    | bool b =>
      cases b <;>
        simp only [stringifyChars, trueChars, falseChars, List.cons_append, List.nil_append]
      · rw [parseV, if_neg (by decide), if_neg (by decide), if_pos rfl]
        simp [dropLit]
      · rw [parseV, if_neg (by decide), if_pos rfl]
        simp [dropLit]
    | num k =>
      simp only [stringifyChars]
      exact parseV_intChars f k rest hrest
    | str s =>
      simp only [stringifyChars, strLit, List.cons_append, List.append_assoc,
        List.singleton_append]
      rw [parseV, if_neg (by decide), if_neg (by decide), if_neg (by decide), if_pos rfl,
        parseStrBody_escChars]
      simp
      exact asString_toList s
    | arr vs =>
      cases vs with
      | nil =>
        simp only [stringifyChars, elemsChars, List.cons_append, List.nil_append,
          List.singleton_append]
        rw [parseV, if_neg (by decide), if_neg (by decide), if_neg (by decide),
          if_neg (by decide), if_pos rfl]
        simp [dropLit]
      | cons v1 tail =>
        simp only [stringifyChars, List.cons_append, List.append_assoc,
          List.singleton_append, List.nil_append]
        rw [parseV, if_neg (by decide), if_neg (by decide), if_neg (by decide),
          if_neg (by decide), if_pos rfl]
        obtain ⟨c, t, hct, hcne⟩ := elemsChars_cons_head v1 tail
        have hsz2 : ∀ x ∈ v1 :: tail, sizeOf x ≤ N := by
          intro x hx
          have h1 := List.sizeOf_lt_of_mem hx
          have h2 : sizeOf (JSValue.arr (v1 :: tail)) = 1 + sizeOf (v1 :: tail) := by
            simp
          omega
        have hlen : (elemsChars (v1 :: tail)).length + 2 ≤ f := by
          simp only [stringifyChars, List.length_cons, List.length_append,
            List.length_singleton] at hfuel
          omega
        rw [hct, List.cons_append, dropLit, if_neg hcne, ← List.cons_append, ← hct,
          helems (v1 :: tail) hsz2 (by simp) f rest hlen]
        rfl
    | obj fs =>
      have hfields : ∀ (fs : List (String × JSValue)), (∀ x ∈ fs, sizeOf x.2 ≤ N) → fs ≠ [] →
          ∀ (g : Nat) (rest2 : List Char), (fieldsChars fs).length + 2 ≤ g →
          parseFields g (fieldsChars fs ++ '\x7d' :: rest2) = some (fs, rest2) := by
        intro fs0
        induction fs0 with
        | nil => intro _ hne; exact absurd rfl hne
        | cons kv tail ihl =>
          obtain ⟨k, v⟩ := kv
          intro hsz _ g rest2 hg
          have hg1 : 1 ≤ g := by have := fieldsChars_length (k, v) tail; omega
          obtain ⟨g', rfl⟩ : ∃ g', g = g' + 1 := ⟨g - 1, by omega⟩
          cases tail with
          | nil =>
            have he : fieldsChars [(k, v)] = strLit k ++ ':' :: stringifyChars v := by
              simp [fieldsChars]
            rw [he] at hg ⊢
            rw [strLit] at hg ⊢
            simp only [List.length_cons, List.length_append, List.length_singleton] at hg
            simp only [List.cons_append, List.append_assoc, List.singleton_append,
              List.nil_append]
            have hv1 := ih v (hsz (k, v) (by simp)) g' ('\x7d' :: rest2) (by omega)
              (by simp [restSafe])
            rw [parseFields, if_pos rfl, parseStrBody_escChars]
            simp [dropLit, hv1, asString_toList, asString_data]
          | cons kv2 tail' =>
            have he : fieldsChars ((k, v) :: kv2 :: tail')
                = strLit k ++ ':' :: stringifyChars v ++ ',' :: fieldsChars (kv2 :: tail') := by
              simp [fieldsChars]
            rw [he] at hg ⊢
            rw [strLit] at hg ⊢
            have hlf : 2 ≤ (fieldsChars (kv2 :: tail')).length := fieldsChars_length kv2 tail'
            simp only [List.length_cons, List.length_append, List.length_singleton] at hg
            simp only [List.cons_append, List.append_assoc, List.singleton_append,
              List.nil_append]
            have hv1 := ih v (hsz (k, v) (by simp)) g'
              (',' :: (fieldsChars (kv2 :: tail') ++ '\x7d' :: rest2)) (by omega)
              (by simp [restSafe])
            have hrec := ihl (fun x hx => hsz x (by simp [hx])) (by simp) g' rest2 (by omega)
            rw [parseFields, if_pos rfl, parseStrBody_escChars]
            simp [dropLit, hv1, hrec, asString_toList, asString_data]
      cases fs with
      | nil =>
        simp only [stringifyChars, fieldsChars, List.cons_append, List.nil_append,
          List.singleton_append]
        rw [parseV, if_neg (by decide), if_neg (by decide), if_neg (by decide),
          if_neg (by decide), if_neg (by decide), if_pos rfl]
        simp [dropLit]
      | cons kv tail =>
        simp only [stringifyChars, List.cons_append, List.append_assoc,
          List.singleton_append, List.nil_append]
        rw [parseV, if_neg (by decide), if_neg (by decide), if_neg (by decide),
          if_neg (by decide), if_neg (by decide), if_pos rfl]
        obtain ⟨t, hft⟩ := fieldsChars_cons_head kv tail
        have hsz2 : ∀ x ∈ kv :: tail, sizeOf x.2 ≤ N := by
          intro x hx
          have h1 := List.sizeOf_lt_of_mem hx
          have h2 : sizeOf (JSValue.obj (kv :: tail)) = 1 + sizeOf (kv :: tail) := by
            simp
          obtain ⟨a, b⟩ := x
          have h3 : sizeOf ((a, b) : String × JSValue) = 1 + sizeOf a + sizeOf b := by
            simp
          simp only []
          omega
        have hlen : (fieldsChars (kv :: tail)).length + 2 ≤ f := by
          simp only [stringifyChars, List.length_cons, List.length_append,
            List.length_singleton] at hfuel
          omega
        rw [hft, List.cons_append, dropLit, if_neg (by decide), ← List.cons_append, ← hft,
          hfields (kv :: tail) hsz2 (by simp) f rest hlen]
        rfl

/-- Round trip: `JSON.parse` inverts `JSON.stringify` on every modelled
JSON value. -/

theorem jsonParse_stringify (v : JSValue) : jsonParse (stringify v) = some v := by
  have h1 : (stringify v).toList = stringifyChars v := rfl
  rw [jsonParse, h1]
  have h2 := parseV_print (sizeOf v) v (Nat.le_refl _) ((stringifyChars v).length + 1) []
    (by omega) (by simp [restSafe])
  rw [List.append_nil] at h2
  rw [h2]

namespace CacheManager

theorem cloneData_eq (v : JSValue) : cloneData v = v := by
  cases v <;> simp [cloneData, jsonParse_stringify]

end CacheManager

theorem mapGet_mapSet_self {α : Type} (k : String) (v : α) (m : List (String × α)) :
    mapGet k (mapSet k v m) = some v := by
  induction m with
  | nil => simp [mapGet, mapSet]
  | cons kv rest ih =>
    obtain ⟨k', v'⟩ := kv
    by_cases h : k' = k
    · simp [mapGet, mapSet, h]
    · simp [mapGet, mapSet, h, ih]

theorem mapGet_mapSet_ne {α : Type} (k k2 : String) (v : α) (m : List (String × α))
    (h : k ≠ k2) : mapGet k2 (mapSet k v m) = mapGet k2 m := by
  induction m with
  | nil => simp [mapGet, mapSet, h, Ne.symm h]
  | cons kv rest ih =>
    obtain ⟨k', v'⟩ := kv
    by_cases h1 : k' = k
    · subst h1
      simp [mapGet, mapSet, h, Ne.symm h]
    · by_cases h2 : k' = k2
      · simp [mapGet, mapSet, h1, h2, h, Ne.symm h]
      · simp [mapGet, mapSet, h1, h2, h, Ne.symm h, ih]

theorem mapGet_eq_none_of_not_mem {α : Type} (k : String) (m : List (String × α))
    (h : k ∉ m.map Prod.fst) : mapGet k m = none := by
  induction m with
  | nil => rfl
  | cons kv rest ih =>
    obtain ⟨k', v'⟩ := kv
    simp only [List.map_cons, List.mem_cons] at h
    push_neg at h
    rw [mapGet, if_neg (Ne.symm h.1)]
    exact ih h.2

theorem mapGet_mapDelete_self {α : Type} (k : String) (m : List (String × α))
    (h : (m.map Prod.fst).Nodup) : mapGet k (mapDelete k m) = none := by
  induction m with
  | nil => rfl
  | cons kv rest ih =>
    obtain ⟨k', v'⟩ := kv
    simp only [List.map_cons, List.nodup_cons] at h
    by_cases h1 : k' = k
    · subst h1
      rw [mapDelete, if_pos rfl]
      exact mapGet_eq_none_of_not_mem k' rest h.1
    · rw [mapDelete, if_neg h1, mapGet, if_neg h1]
      exact ih h.2

theorem mem_keys_mapSet {α : Type} (k x : String) (v : α) (m : List (String × α)) :
    x ∈ (mapSet k v m).map Prod.fst ↔ (x ∈ m.map Prod.fst ∨ x = k) := by
  induction m with
  | nil => simp [mapSet]
  | cons kv rest ih =>
    obtain ⟨a, b⟩ := kv
    by_cases ha : a = k
    · subst ha
      rw [mapSet, if_pos rfl]
      simp only [List.map_cons, List.mem_cons]
      tauto
    · rw [mapSet, if_neg ha]
      simp only [List.map_cons, List.mem_cons, ih]
      tauto

theorem mapSet_keys_nodup {α : Type} (k : String) (v : α) (m : List (String × α))
    (h : (m.map Prod.fst).Nodup) : ((mapSet k v m).map Prod.fst).Nodup := by
  induction m with
  | nil => simp [mapSet]
  | cons kv rest ih =>
    obtain ⟨k', v'⟩ := kv
    simp only [List.map_cons, List.nodup_cons] at h
    by_cases h1 : k' = k
    · subst h1
      rw [mapSet, if_pos rfl]
      simp only [List.map_cons, List.nodup_cons]
      exact h
    · rw [mapSet, if_neg h1]
      simp only [List.map_cons, List.nodup_cons]
      refine ⟨?_, ih h.2⟩
      intro hmem
      rcases (mem_keys_mapSet k k' v rest).mp hmem with h2 | h2
      · exact h.1 h2
      · exact h1 h2

theorem mapDelete_keys_sublist {α : Type} (k : String) (m : List (String × α)) :
    ((mapDelete k m).map Prod.fst).Sublist (m.map Prod.fst) := by
  induction m with
  | nil => simp [mapDelete]
  | cons kv rest ih =>
    obtain ⟨k', v'⟩ := kv
    by_cases h1 : k' = k
    · rw [mapDelete, if_pos h1]
      simp only [List.map_cons]
      exact (List.sublist_cons_self k' (rest.map Prod.fst)).trans (List.Sublist.refl _) |>.trans
        (List.Sublist.refl _) |>.trans (List.Sublist.refl _)
    · rw [mapDelete, if_neg h1]
      simp only [List.map_cons]
      exact ih.cons₂ k'

theorem mapDelete_keys_nodup {α : Type} (k : String) (m : List (String × α))
    (h : (m.map Prod.fst).Nodup) : ((mapDelete k m).map Prod.fst).Nodup :=
  h.sublist (mapDelete_keys_sublist k m)

namespace CacheManager

theorem deleteKey_nodup (st : CacheState) (key : JSValue) (h : KeysNodup st) :
    KeysNodup (deleteKey st key).1 := by
  rw [deleteKey]
  cases hget : mapGet (normalizeKey key) st.cache
  · simpa using h
  · simpa using mapDelete_keys_nodup _ _ h

theorem evictLeastUsed_nodup (st : CacheState) (h : KeysNodup st) :
    KeysNodup (evictLeastUsed st) := by
  rw [evictLeastUsed]
  cases leastUsed st with
  | none => exact h
  | some kv =>
    obtain ⟨k, s⟩ := kv
    by_cases hk : k = ""
    · simpa [hk] using h
    · simpa [hk] using deleteKey_nodup st (denormalizeKey k) h

theorem set_nodup (st : CacheState) (now : Int) (key value : JSValue) (opts : SetOptions)
    (h : KeysNodup st) : KeysNodup (set st now key value opts) := by
  rw [set]
  simp only [KeysNodup]
  apply mapSet_keys_nodup
  by_cases hcond : st.cache.length ≥ st.maxSize ∧ mapHas (normalizeKey key) st.cache = false
  · rw [if_pos hcond]
    exact evictLeastUsed_nodup st h
  · rw [if_neg hcond]
    exact h

theorem isExpired_false_of_le (now2 : Int) (e : Entry) (h : now2 ≤ e.expiresAt) :
    isExpired now2 e = false := by
  simp only [isExpired, Bool.and_eq_false_iff]
  right
  simp
  omega

theorem isExpired_true_of_lt (now2 : Int) (e : Entry) (h0 : 0 < e.expiresAt)
    (h : e.expiresAt < now2) : isExpired now2 e = true := by
  simp only [isExpired, Bool.and_eq_true, decide_eq_true_eq]
  omega

end CacheManager

/-- Shared core of C1 and C10: after `set`, a `get` under any key with
the same normalized form, at any time not past the entry's expiry,
returns exactly the stored value. -/
theorem get_after_set (st : CacheManager.CacheState) (now : Int) (key key2 value : JSValue)
    (opts : CacheManager.SetOptions) (now2 : Int) (d : Option JSValue)
    (hk : CacheManager.normalizeKey key2 = CacheManager.normalizeKey key)
    (ht : now2 ≤ now + CacheManager.effectiveTTL st opts) :
    (CacheManager.get (CacheManager.set st now key value opts) now2 key2 d).1 = value := by
  simp only [CacheManager.get, CacheManager.set, hk]
  rw [mapGet_mapSet_self]
  simp [CacheManager.isExpired_false_of_le, ht, CacheManager.cloneData_eq]

/-- C1: for every key and every JSON-serializable value, `set(k, v)`
followed by `get(k)` before the entry's effective ttl has elapsed
returns a value (deep-)equal to `v` — the stored copy round-trips
through serialization (`cloneData`) unchanged. -/
theorem C1_set_then_get_returns_value
    (st : CacheManager.CacheState) (now : Int) (key value : JSValue)
    (opts : CacheManager.SetOptions) (now2 : Int)
    (ht : now2 ≤ now + CacheManager.effectiveTTL st opts) :
    (CacheManager.get (CacheManager.set st now key value opts) now2 key none).1 = value :=
  get_after_set st now key key value opts now2 none rfl ht

/-- Witness for C1 at a concrete nested object value. -/

theorem C1_witness :
    ((1 : Int) ≤ 0 + CacheManager.effectiveTTL initialState {}) ∧
    (CacheManager.get
      (CacheManager.set initialState 0 (.str "a")
        (.obj [("id", .num 1), ("tags", .arr [.str "x", .null])]) {}) 1
      (.str "a") none).1 = .obj [("id", .num 1), ("tags", .arr [.str "x", .null])] :=
  ⟨by norm_num [CacheManager.effectiveTTL, initialState],
   C1_set_then_get_returns_value initialState 0 (.str "a")
     (.obj [("id", .num 1), ("tags", .arr [.str "x", .null])]) {} 1
     (by norm_num [CacheManager.effectiveTTL, initialState])⟩

/-- C10: cache keys are identified by their JSON serialization —
whenever two keys have the same normalized form (for example the number
`1` and the string `"1"`), a `set` under one followed by a `get` under
the other (before expiry) hits the same entry and returns the stored
value. -/

theorem C10_normalized_keys_alias
    (st : CacheManager.CacheState) (now : Int) (k1 k2 value : JSValue)
    (opts : CacheManager.SetOptions) (now2 : Int)
    (hk : CacheManager.normalizeKey k1 = CacheManager.normalizeKey k2)
    (ht : now2 ≤ now + CacheManager.effectiveTTL st opts) :
    (CacheManager.get (CacheManager.set st now k1 value opts) now2 k2 none).1 = value :=
  get_after_set st now k1 k2 value opts now2 none hk.symm ht

/-- Witness for C10: the number key `1` and the string key `"1"`
normalize identically, and the get under the string key returns the
value stored under the number key. -/

theorem C10_witness :
    CacheManager.normalizeKey (.num 1) = CacheManager.normalizeKey (.str "1") ∧
    (CacheManager.get (CacheManager.set initialState 0 (.num 1) (.str "v") {}) 1
      (.str "1") none).1 = .str "v" := by
  have hk : CacheManager.normalizeKey (.num 1) = CacheManager.normalizeKey (.str "1") := by
    simp [CacheManager.normalizeKey, stringify, stringifyChars, intChars, natChars,
      natDigits, natDigitsAux, digitChar]
    rfl
  exact ⟨hk, C10_normalized_keys_alias initialState 0 (.num 1) (.str "1") (.str "v") {} 1 hk
    (by norm_num [CacheManager.effectiveTTL, initialState])⟩

/-- The entry stored by `set`, read back from the cache map. -/

theorem mapGet_set_cache (st : CacheManager.CacheState) (now : Int) (key value : JSValue)
    (opts : CacheManager.SetOptions) :
    mapGet (CacheManager.normalizeKey key) (CacheManager.set st now key value opts).cache
      = some
        { data := CacheManager.cloneData value
          timestamp := now
          ttl := CacheManager.effectiveTTL st opts
          expiresAt := now + CacheManager.effectiveTTL st opts
          priority := opts.priority.getD .normal
          tags := opts.tags.getD [] } := by
  simp only [CacheManager.set]
  exact mapGet_mapSet_self _ _ _

/-- A `get` on an expired entry returns the miss sentinel and removes
the entry (lazy deletion), for any state whose cache keys are
duplicate-free. -/

theorem get_expired_general (st2 : CacheManager.CacheState) (now2 : Int) (key : JSValue)
    (d : Option JSValue) (e : CacheManager.Entry)
    (hget : mapGet (CacheManager.normalizeKey key) st2.cache = some e)
    (hexp : CacheManager.isExpired now2 e = true)
    (hnodup : CacheManager.KeysNodup st2) :
    (CacheManager.get st2 now2 key d).1 = jsOrNull d ∧
    mapGet (CacheManager.normalizeKey key) ((CacheManager.get st2 now2 key d).2).cache = none := by
  simp only [CacheManager.get, hget, hexp]
  constructor
  · simp
  · simp only [CacheManager.deleteKey, hget]
    simpa using mapGet_mapDelete_self _ _ hnodup

/-- C2: an entry stored with a positive effective ttl is, once the
clock passes its `expiresAt`, never returned by `get` — the miss
sentinel (`defaultValue || null`) comes back instead — and the access
removes the expired entry from the cache (lazy deletion; the periodic
sweep in the source deletes by the same `isExpired` test). -/

theorem C2_expired_get_misses_and_removes
    (st : CacheManager.CacheState) (now : Int) (key value : JSValue)
    (opts : CacheManager.SetOptions) (now2 : Int) (d : Option JSValue)
    (hnodup : CacheManager.KeysNodup st)
    (hnow : 0 ≤ now)
    (httl : 0 < CacheManager.effectiveTTL st opts)
    (hafter : now + CacheManager.effectiveTTL st opts < now2) :
    (CacheManager.get (CacheManager.set st now key value opts) now2 key d).1 = jsOrNull d ∧
    mapGet (CacheManager.normalizeKey key)
      ((CacheManager.get (CacheManager.set st now key value opts) now2 key d).2).cache = none := by
  refine get_expired_general _ now2 key d _ (mapGet_set_cache st now key value opts) ?_
    (CacheManager.set_nodup st now key value opts hnodup)
  apply CacheManager.isExpired_true_of_lt
  · simp only []
    omega
  · simp only []
    omega

/-- Witness for C2, mirroring the spec's example scenario:
store `"p1"` with ttl 1000 at time 0, read it back at time 1100 —
the result is `null` and the entry is gone. -/

theorem C2_witness :
    (CacheManager.get
        (CacheManager.set initialState 0 (.str "p1") (.num 1) { ttl := some 1000 }) 1100
        (.str "p1") none).1 = jsOrNull none ∧
    mapGet (CacheManager.normalizeKey (.str "p1"))
      ((CacheManager.get
          (CacheManager.set initialState 0 (.str "p1") (.num 1) { ttl := some 1000 }) 1100
          (.str "p1") none).2).cache = none :=
  C2_expired_get_misses_and_removes initialState 0 (.str "p1") (.num 1) { ttl := some 1000 }
    1100 none (by simp [CacheManager.KeysNodup, initialState]) (by norm_num)
    (by norm_num [CacheManager.effectiveTTL, initialState])
    (by norm_num [CacheManager.effectiveTTL, initialState])

/-- C9 (corrected): a miss — absent or expired key — returns the
caller-supplied default only when that default is truthy; a falsy
default (such as `0`, `false` or `""`) and an absent default both yield
`null`, because the source computes `options.defaultValue || null`.  On
a hit, the entry's last-access time is refreshed and its hit count
incremented. -/

theorem C9_get_default_and_hit_bookkeeping :
    (∀ (st : CacheManager.CacheState) (now : Int) (key d : JSValue),
      mapGet (CacheManager.normalizeKey key) st.cache = none → truthy d = true →
      (CacheManager.get st now key (some d)).1 = d) ∧
    (∀ (st : CacheManager.CacheState) (now : Int) (key d : JSValue),
      mapGet (CacheManager.normalizeKey key) st.cache = none → truthy d = false →
      (CacheManager.get st now key (some d)).1 = .null) ∧
    (∀ (st : CacheManager.CacheState) (now : Int) (key : JSValue),
      mapGet (CacheManager.normalizeKey key) st.cache = none →
      (CacheManager.get st now key none).1 = .null) ∧
    (∀ (st : CacheManager.CacheState) (now : Int) (key d : JSValue) (e : CacheManager.Entry),
      mapGet (CacheManager.normalizeKey key) st.cache = some e →
      CacheManager.isExpired now e = true → truthy d = true →
      (CacheManager.get st now key (some d)).1 = d) ∧
    (∀ (st : CacheManager.CacheState) (now : Int) (key d : JSValue) (e : CacheManager.Entry),
      mapGet (CacheManager.normalizeKey key) st.cache = some e →
      CacheManager.isExpired now e = true → truthy d = false →
      (CacheManager.get st now key (some d)).1 = .null) ∧
    (∀ (st : CacheManager.CacheState) (now : Int) (key : JSValue) (e : CacheManager.Entry),
      mapGet (CacheManager.normalizeKey key) st.cache = some e →
      CacheManager.isExpired now e = true →
      (CacheManager.get st now key none).1 = .null) ∧
    (∀ (st : CacheManager.CacheState) (now : Int) (key : JSValue) (d : Option JSValue)
      (e : CacheManager.Entry),
      mapGet (CacheManager.normalizeKey key) st.cache = some e →
      CacheManager.isExpired now e = false →
      ((CacheManager.get st now key d).2.accessTimes
          = mapSet (CacheManager.normalizeKey key) now st.accessTimes ∧
        (CacheManager.get st now key d).2.hitCount
          = mapSet (CacheManager.normalizeKey key)
              ((mapGet (CacheManager.normalizeKey key) st.hitCount).getD 0 + 1) st.hitCount)) := by
  refine ⟨?_, ?_, ?_, ?_, ?_, ?_, ?_⟩
  · intro st now key d hget htruthy
    simp [CacheManager.get, hget, jsOrNull, htruthy]
  · intro st now key d hget htruthy
    simp [CacheManager.get, hget, jsOrNull, htruthy]
  · intro st now key hget
    simp [CacheManager.get, hget, jsOrNull]
  · intro st now key d e hget hexp htruthy
    simp [CacheManager.get, hget, hexp, jsOrNull, htruthy]
  · intro st now key d e hget hexp htruthy
    simp [CacheManager.get, hget, hexp, jsOrNull, htruthy]
  · intro st now key e hget hexp
    simp [CacheManager.get, hget, hexp, jsOrNull]
  · intro st now key d e hget hexp
    simp [CacheManager.get, hget, hexp]

/-- Counterexample for C9 as stated: with the falsy caller-supplied
default `0`, a missing key returns `null`, not the default. -/

theorem C9_counterexample :
    (CacheManager.get initialState 0 (.str "k") (some (.num 0))).1 = .null ∧
    JSValue.null ≠ JSValue.num 0 :=
  ⟨rfl, fun h => JSValue.noConfusion h⟩

/-- Witness for C9: a truthy default is returned on a miss, a falsy
default and an absent default yield `null`, and an expired entry with
no default yields `null`. -/

theorem C9_witness :
    (CacheManager.get initialState 0 (.str "k") (some (.num 7))).1 = .num 7 ∧
    (CacheManager.get initialState 0 (.str "k") (some (.bool false))).1 = .null ∧
    (CacheManager.get initialState 0 (.str "q") none).1 = .null ∧
    (CacheManager.get
        (CacheManager.set initialState 0 (.str "p") (.num 5) { ttl := some 10 }) 100
        (.str "p") none).1 = .null :=
  ⟨C9_get_default_and_hit_bookkeeping.1 initialState 0 (.str "k") (.num 7) rfl rfl,
   C9_get_default_and_hit_bookkeeping.2.1 initialState 0 (.str "k") (.bool false) rfl rfl,
   C9_get_default_and_hit_bookkeeping.2.2.1 initialState 0 (.str "q") rfl,
   C9_get_default_and_hit_bookkeeping.2.2.2.2.2.1
     (CacheManager.set initialState 0 (.str "p") (.num 5) { ttl := some 10 }) 100 (.str "p")
     { data := .num 5, timestamp := 0, ttl := 10, expiresAt := 10,
       priority := .normal, tags := [] }
     rfl rfl⟩

namespace ErrorHandler

theorem backoffDelay_shift (cfg : RetryConfig) (a n : Nat) :
    (List.range (n + 1)).map (fun i => backoffDelay cfg (a + i))
      = backoffDelay cfg a :: (List.range n).map (fun i => backoffDelay cfg (a + 1 + i)) := by
  rw [List.range_succ_eq_map, List.map_cons, List.map_map]
  refine congrArg₂ _ (by simp) ?_
  refine List.map_congr_left ?_
  intro i _
  simp only [Function.comp_apply]
  refine congrArg _ ?_
  omega

theorem retryLoop_ok (fn : Nat → Except JsError JSValue) (cfg : RetryConfig) (v : JSValue) :
    ∀ (n a left : Nat), n ≤ left →
    (∀ i, i < n → ∃ e, fn (a + i) = .error e ∧ (classifyError e).canRetry = true) →
    fn (a + n) = .ok v →
    retryLoop fn cfg a left
      = (.ok v, (List.range n).map (fun i => backoffDelay cfg (a + i)), n + 1) := by
  intro n
  induction n with
  | zero =>
    intro a left _ _ hok
    rw [Nat.add_zero] at hok
    cases left with
    | zero => simp [retryLoop, hok]
    | succ l => simp [retryLoop, hok]
  | succ n ihn =>
    intro a left hle hfail hok
    obtain ⟨l, rfl⟩ : ∃ l, left = l + 1 := ⟨left - 1, by omega⟩
    obtain ⟨e0, he0, hr0⟩ := hfail 0 (by omega)
    rw [Nat.add_zero] at he0
    have hrec := ihn (a + 1) l (by omega)
      (fun i hi => by
        obtain ⟨e, he, hr⟩ := hfail (i + 1) (by omega)
        exact ⟨e, by rw [show a + 1 + i = a + (i + 1) by omega]; exact he, hr⟩)
      (by rw [show a + 1 + n = a + (n + 1) by omega]; exact hok)
    rw [retryLoop, he0]
    simp only [hr0, if_pos, hrec, backoffDelay_shift cfg a n]
    rfl

theorem retryLoop_exhaust (fn : Nat → Except JsError JSValue) (cfg : RetryConfig)
    (err : Nat → JsError) :
    ∀ (left a : Nat),
    (∀ i, i ≤ left → fn (a + i) = .error (err (a + i)) ∧
      (classifyError (err (a + i))).canRetry = true) →
    retryLoop fn cfg a left
      = (.error (err (a + left)), (List.range left).map (fun i => backoffDelay cfg (a + i)),
         left + 1) := by
  intro left
  induction left with
  | zero =>
    intro a h
    obtain ⟨he, _⟩ := h 0 (Nat.le_refl 0)
    rw [Nat.add_zero] at he
    simp [retryLoop, he]
  | succ l ihl =>
    intro a h
    obtain ⟨he0, hr0⟩ := h 0 (by omega)
    rw [Nat.add_zero] at he0 hr0
    have hrec := ihl (a + 1)
      (fun i hi => by
        obtain ⟨he, hr⟩ := h (i + 1) (by omega)
        rw [show a + 1 + i = a + (i + 1) by omega]
        exact ⟨he, hr⟩)
    rw [retryLoop, he0]
    simp only [hr0, if_pos, hrec, backoffDelay_shift cfg a l,
      show a + 1 + l = a + (l + 1) by omega]
    rfl

/-- The flag `canRetry` is `false` exactly for the contract, validation and
permission classifications, by the shape of `classifyError`. -/

theorem canRetry_iff_type (e : JsError) :
    (classifyError e).canRetry = false ↔
      ((classifyError e).type = .contract ∨ (classifyError e).type = .validation ∨
        (classifyError e).type = .permission) := by
  simp only [classifyError]
  split_ifs <;> simp

end ErrorHandler

/-- C7: a function failing with retryable errors on its first `n`
attempts (`n < maxRetries`) and succeeding on the next one makes
`retry` return the success value after exactly `n` failures, sleeping
`min(baseDelay * backoffFactor ^ i, maxDelay)` after failed attempt
`i`; and when every allowed attempt fails (retryably), `retry`
re-raises the error of the last attempt. -/
theorem C7_retry_backoff_and_reraise :
    (∀ (fn : Nat → Except ErrorHandler.JsError JSValue) (cfg : ErrorHandler.RetryConfig)
        (n : Nat) (v : JSValue),
      n < cfg.maxRetries →
      (∀ i, i < n → ∃ e, fn i = .error e ∧ (ErrorHandler.classifyError e).canRetry = true) →
      fn n = .ok v →
      ErrorHandler.retry fn cfg
        = (.ok v, (List.range n).map (fun i => ErrorHandler.backoffDelay cfg i), n + 1)) ∧
    (∀ (fn : Nat → Except ErrorHandler.JsError JSValue) (cfg : ErrorHandler.RetryConfig)
        (err : Nat → ErrorHandler.JsError),
      (∀ i, i ≤ cfg.maxRetries → fn i = .error (err i) ∧
        (ErrorHandler.classifyError (err i)).canRetry = true) →
      ErrorHandler.retry fn cfg
        = (.error (err cfg.maxRetries),
           (List.range cfg.maxRetries).map (fun i => ErrorHandler.backoffDelay cfg i),
           cfg.maxRetries + 1)) := by
  constructor
  · intro fn cfg n v hlt hfail hok
    have h := ErrorHandler.retryLoop_ok fn cfg v n 0 cfg.maxRetries (by omega)
      (by simpa using hfail) (by simpa using hok)
    simpa [ErrorHandler.retry] using h
  · intro fn cfg err h
    have h2 := ErrorHandler.retryLoop_exhaust fn cfg err cfg.maxRetries 0
      (by simpa using h)
    simpa [ErrorHandler.retry] using h2

/-- C8: an error classified as contract, validation or permission is
not retryable, so `retry` invokes the function exactly once (no delays)
and re-raises the error; errors classified as network, wallet, timeout
or unknown are retryable. -/

theorem C8_nonretryable_not_retried :
    (∀ (fn : Nat → Except ErrorHandler.JsError JSValue) (cfg : ErrorHandler.RetryConfig)
        (e : ErrorHandler.JsError),
      fn 0 = .error e →
      ((ErrorHandler.classifyError e).type = .contract ∨
        (ErrorHandler.classifyError e).type = .validation ∨
        (ErrorHandler.classifyError e).type = .permission) →
      ErrorHandler.retry fn cfg = (.error e, [], 1)) ∧
    (∀ e : ErrorHandler.JsError,
      ((ErrorHandler.classifyError e).type = .network ∨
        (ErrorHandler.classifyError e).type = .wallet ∨
        (ErrorHandler.classifyError e).type = .timeout ∨
        (ErrorHandler.classifyError e).type = .unknown) →
      (ErrorHandler.classifyError e).canRetry = true) := by
  constructor
  · intro fn cfg e h0 htype
    have hcr : (ErrorHandler.classifyError e).canRetry = false :=
      (ErrorHandler.canRetry_iff_type e).mpr htype
    cases hm : cfg.maxRetries with
    | zero =>
      simp [ErrorHandler.retry, hm, ErrorHandler.retryLoop, h0]
    | succ m =>
      simp [ErrorHandler.retry, hm, ErrorHandler.retryLoop, h0, hcr]
  · intro e htype
    cases hcr : (ErrorHandler.classifyError e).canRetry with
    | true => rfl
    | false =>
      rcases (ErrorHandler.canRetry_iff_type e).mp hcr with h | h | h <;>
        rcases htype with h2 | h2 | h2 | h2 <;> rw [h] at h2 <;> exact absurd h2 (by simp)

/-- Witness for C7: with the default configuration, two retryable
failures then success yield the value after delays 1000 and 2000 and
three invocations; four retryable failures exhaust the three retries
and re-raise the last error after delays 1000, 2000, 4000. -/
theorem C7_witness :
    ErrorHandler.retry fnTwiceThenOk ErrorHandler.defaultRetryConfig
      = (.ok (.num 7), [1000, 2000], 3) ∧
    ErrorHandler.retry fnAlwaysFails ErrorHandler.defaultRetryConfig
      = (.error ⟨"connection lost", none⟩, [1000, 2000, 4000], 4) := by
  constructor
  · have h := C7_retry_backoff_and_reraise.1 fnTwiceThenOk ErrorHandler.defaultRetryConfig
      2 (.num 7) (by decide)
      (fun i hi => ⟨⟨"network down", none⟩, by interval_cases i <;> rfl, rfl⟩) rfl
    rw [h]
    rfl
  · have h := C7_retry_backoff_and_reraise.2 fnAlwaysFails ErrorHandler.defaultRetryConfig
      (fun _ => ⟨"connection lost", none⟩) (fun i _ => ⟨rfl, rfl⟩)
    rw [h]
    rfl

/-- Witness for C8: a validation-classified error is thrown after one
invocation with no delays, and a timeout-classified error is
retryable. -/
theorem C8_witness :
    ErrorHandler.retry fnValidationError ErrorHandler.defaultRetryConfig
      = (.error ⟨"Invalid input", none⟩, [], 1) ∧
    (ErrorHandler.classifyError ⟨"request timeout", none⟩).canRetry = true :=
  ⟨C8_nonretryable_not_retried.1 fnValidationError ErrorHandler.defaultRetryConfig
      ⟨"Invalid input", none⟩ rfl (Or.inr (Or.inl rfl)),
   C8_nonretryable_not_retried.2 ⟨"request timeout", none⟩ (Or.inr (Or.inr (Or.inl rfl)))⟩

/-- C3 as a code bug, evaluated at its failing input: with `maxSize` 1,
storing under the three-character string key `"x"` (quotes included) and
then under a fresh key leaves TWO entries in the cache.  The eviction
triggered by the second `set` deletes
`denormalizeKey('"x"') = 'x'` — a key that is not in the cache — so the
over-capacity entry survives and the size bound is broken. -/
theorem C3_failing_input_eval :
    smallCache1.maxSize = 1 ∧
    (CacheManager.set (CacheManager.set smallCache1 1000 (.str "\"x\"") (.num 1) {})
        2000 (.str "y") (.num 2) {}).cache.length = 2 :=
  ⟨rfl, rfl⟩

/-- C4 as a code bug, evaluated at its failing input: a `set` made
while the cache holds `maxSize = 1` entries under a key that is not
present removes NO pre-existing entry — the eviction's
`delete(denormalizeKey(key))` round trip misses the stored key
`"x"` (quotes included) — instead of removing exactly one. -/

theorem C4_failing_input_eval :
    (CacheManager.set smallCache1 1000 (.str "\"x\"") (.num 1) {}).cache.length = 1 ∧
    mapHas (CacheManager.normalizeKey (.str "y"))
      (CacheManager.set smallCache1 1000 (.str "\"x\"") (.num 1) {}).cache = false ∧
    mapGet "\"x\""
      (CacheManager.set (CacheManager.set smallCache1 1000 (.str "\"x\"") (.num 1) {})
        2000 (.str "y") (.num 2) {}).cache
      = mapGet "\"x\"" (CacheManager.set smallCache1 1000 (.str "\"x\"") (.num 1) {}).cache ∧
    (CacheManager.set (CacheManager.set smallCache1 1000 (.str "\"x\"") (.num 1) {})
        2000 (.str "y") (.num 2) {}).cache.length = 2 :=
  ⟨rfl, rfl, rfl, rfl⟩

/-- C5 as a code bug, evaluated at its failing input: in `c5pre` the
entry under `"x"`-with-quotes has the strictly smallest eviction score,
yet the over-capacity `set` of a fresh key evicts the OTHER entry
(plain `x`): `evictLeastUsed` picks the least-scored key but then
deletes `denormalizeKey('"x"') = 'x'`, removing the higher-scored
entry. -/
theorem C5_failing_input_eval :
    mapGet "\"x\"" c5pre.cache = some entryA ∧
    mapGet "x" c5pre.cache = some entryB ∧
    CacheManager.score c5pre "\"x\"" entryA < CacheManager.score c5pre "x" entryB ∧
    (CacheManager.set c5pre 3000 (.str "z") (.num 3) {}).cache.map Prod.fst
      = ["\"x\"", "z"] := by
  have hat1 : mapGet "\"x\"" c5pre.accessTimes = some 1000 := rfl
  have hat2 : mapGet "x" c5pre.accessTimes = some 2000 := rfl
  have hhit1 : mapGet "\"x\"" c5pre.hitCount = some 0 := rfl
  have hhit2 : mapGet "x" c5pre.hitCount = some 0 := rfl
  have hc : c5pre.cache = [("\"x\"", entryA), ("x", entryB)] := rfl
  have h1 : CacheManager.score c5pre "\"x\"" entryA = 2 := by
    rw [CacheManager.score, hat1, hhit1]
    norm_num [entryA, CacheManager.priorityWeight]
  have h2 : CacheManager.score c5pre "x" entryB = 4 := by
    rw [CacheManager.score, hat2, hhit2]
    norm_num [entryB, CacheManager.priorityWeight]
  have hscore : CacheManager.score c5pre "\"x\"" entryA < CacheManager.score c5pre "x" entryB := by
    rw [h1, h2]
    norm_num
  have hLU : CacheManager.leastUsed c5pre
      = some ("\"x\"", CacheManager.score c5pre "\"x\"" entryA) := by
    rw [CacheManager.leastUsed, hc]
    simp only [List.foldl_cons, List.foldl_nil]
    rw [if_neg (by rw [h1, h2]; norm_num)]
  have hev : CacheManager.evictLeastUsed c5pre
      = (CacheManager.deleteKey c5pre (CacheManager.denormalizeKey "\"x\"")).1 := by
    rw [CacheManager.evictLeastUsed, hLU]
    rfl
  refine ⟨rfl, rfl, hscore, ?_⟩
  show (CacheManager.set c5pre 3000 (.str "z") (.num 3) {}).cache.map Prod.fst = _
  simp only [CacheManager.set]
  rw [if_pos ⟨by decide, rfl⟩, hev]
  rfl

/-- C6 as a code bug, evaluated at its failing input: `clear({tags:
["t"]})` must remove exactly the entries tagged `t`, but on `c6pre` it
removes the UNTAGGED plain-`x` entry and keeps the tagged one — the tag
branch deletes `denormalizeKey('"x"') = 'x'`. -/
theorem C6_failing_input_eval :
    (mapGet "\"x\"" c6pre.cache).map CacheManager.Entry.tags = some ["t"] ∧
    (mapGet "x" c6pre.cache).map CacheManager.Entry.tags = some [] ∧
    (CacheManager.clear c6pre (some ["t"])).cache.map Prod.fst = ["\"x\""] :=
  ⟨rfl, rfl, rfl⟩
